import Mathlib

/-!
Shallow embedding of the `ts-ev` event emitter (`src/index.ts`).

The emitter stores `_evinfo`, a mapping from event name to an ordered array of
`[listener, {once, protect?, filter?}]` pairs.  We model callbacks by natural
number identities (reference identity of a JS function value), payloads by an
arbitrary type `α`, and the table by an association list that mirrors JS object
key insertion order.  The behaviour of listener bodies during `emit` (they may
mutate the table or throw) is supplied by an environment mapping a callback
identity and the payload to a table transformation plus a "threw" flag.
-/

namespace TsEv

/-- One registered listener entry: `[listener, {once, protect, filter}]`
(`src/index.ts` lines 139-150).  `cb` is the identity of the stored callback;
`filter` is the optional predicate over the payload. -/
structure Entry (α : Type) where
  cb : Nat
  once : Bool
  protect : Bool
  filter : Option (α → Bool)

/-- The `_evinfo` table: event name to ordered listener list, keys kept in
insertion order as a JS object does. -/
abbrev Table (α : Type) := List (String × List (Entry α))

/-- `this._evinfo[ev]`: the first binding for `ev`, if any. -/
def lookupEv {α : Type} : Table α → String → Option (List (Entry α))
  | [], _ => none
  | (k, es) :: rest, ev => if k = ev then some es else lookupEv rest ev

/-- The listener list for an event, empty when the key is absent. -/
def entriesOf {α : Type} (t : Table α) (ev : String) : List (Entry α) :=
  (lookupEv t ev).getD []

/-- `this._evinfo[ev] = es`: replace the binding in place if present
(JS key order is unchanged by assignment to an existing key), otherwise
append the new key at the end. -/
def setEntries {α : Type} : Table α → String → List (Entry α) → Table α
  | [], ev, es => [(ev, es)]
  | (k, old) :: rest, ev, es =>
      if k = ev then (ev, es) :: rest else (k, old) :: setEntries rest ev es

/-- `delete this._evinfo[ev]`. -/
def deleteKey {α : Type} : Table α → String → Table α
  | [], _ => []
  | (k, es) :: rest, ev => if k = ev then rest else (k, es) :: deleteKey rest ev

/-- `filter ? filter(data) : true` (`src/index.ts` line 468). -/
def passes {α : Type} (e : Entry α) (d : α) : Bool :=
  match e.filter with
  | some f => f d
  | none => true

/-- `Emitter.on` (`src/index.ts` lines 187-195): push an entry with
`once = false`, or create a singleton list for a fresh key. -/
def onFn {α : Type} (t : Table α) (ev : String) (listener : Nat)
    (filter : Option (α → Bool)) (protect : Bool) : Table α :=
  match lookupEv t ev with
  | some info => setEntries t ev (info ++ [⟨listener, false, protect, filter⟩])
  | none => setEntries t ev [⟨listener, false, protect, filter⟩]

/-- `Emitter.prependOn` (`src/index.ts` lines 224-232): unshift an entry with
`once = false`. -/
def prependOn {α : Type} (t : Table α) (ev : String) (listener : Nat)
    (filter : Option (α → Bool)) (protect : Bool) : Table α :=
  match lookupEv t ev with
  | some info => setEntries t ev (⟨listener, false, protect, filter⟩ :: info)
  | none => setEntries t ev [⟨listener, false, protect, filter⟩]

/-- `Emitter.once`, callback overload (`src/index.ts` lines 294-304): push an
entry with `once = true`. -/
def onceFn {α : Type} (t : Table α) (ev : String) (listener : Nat)
    (filter : Option (α → Bool)) (protect : Bool) : Table α :=
  match lookupEv t ev with
  | some info => setEntries t ev (info ++ [⟨listener, true, protect, filter⟩])
  | none => setEntries t ev [⟨listener, true, protect, filter⟩]

/-- `Emitter.once`, promise overload (`src/index.ts` lines 305-318): push the
resolver shim with `once = true` and `protect` forced to `true`
(`{ once: true, ...listenerOrOptions, protect: true }`); whatever protect
option the caller may have passed in `listenerOrOptions` is overridden. -/
def oncePromise {α : Type} (t : Table α) (ev : String) (shim : Nat)
    (filter : Option (α → Bool)) (callerProtect : Bool) : Table α :=
  match lookupEv t ev with
  | some info => setEntries t ev (info ++ [⟨shim, true, true, filter⟩])
  | none => setEntries t ev [⟨shim, true, true, filter⟩]

/-- `Emitter.prependOnce`, callback overload (`src/index.ts` lines 380-390):
unshift an entry with `once = true`. -/
def prependOnceFn {α : Type} (t : Table α) (ev : String) (listener : Nat)
    (filter : Option (α → Bool)) (protect : Bool) : Table α :=
  match lookupEv t ev with
  | some info => setEntries t ev (⟨listener, true, protect, filter⟩ :: info)
  | none => setEntries t ev [⟨listener, true, protect, filter⟩]

/-- `Emitter.prependOnce`, promise overload (`src/index.ts` lines 391-404):
unshift the resolver shim with `once = true` and `protect` forced to `true`. -/
def prependOncePromise {α : Type} (t : Table α) (ev : String) (shim : Nat)
    (filter : Option (α → Bool)) (callerProtect : Bool) : Table α :=
  match lookupEv t ev with
  | some info => setEntries t ev (⟨shim, true, true, filter⟩ :: info)
  | none => setEntries t ev [⟨shim, true, true, filter⟩]

/-- Remove the first entry whose callback is `c`; identity when none matches. -/
def removeFirst {α : Type} (c : Nat) : List (Entry α) → List (Entry α)
  | [] => []
  | e :: es => if e.cb = c then es else e :: removeFirst c es

/-- `cbs.splice(cbs.findIndex(([l]) => l === c), 1)` (`src/index.ts`
lines 432-435 and 445-448): remove the first entry whose stored callback is
`c`; when none matches, `findIndex` returns `-1` and `splice(-1, 1)` removes
the LAST element of the array (and removes nothing from an empty array). -/
def spliceFirst {α : Type} (cbs : List (Entry α)) (c : Nat) : List (Entry α) :=
  if cbs.any (fun e => e.cb == c) then removeFirst c cbs else cbs.dropLast

/-- `Emitter.off(ev, listener)` (`src/index.ts` lines 428-437): splice out the
first matching entry regardless of its protect flag, then delete the key if
the list became empty. -/
def offCb {α : Type} (t : Table α) (ev : String) (listener : Nat) : Table α :=
  match lookupEv t ev with
  | none => t
  | some cbs =>
    let cbs' := spliceFirst cbs listener
    if cbs'.length = 0 then deleteKey t ev else setEntries t ev cbs'

/-- The loop body of `Emitter.off(ev)` (`src/index.ts` lines 442-448): collect
`todel`, the callbacks of all unprotected entries, then splice out the first
match of each collected callback in turn. -/
def purgeUnprotected {α : Type} (cbs : List (Entry α)) : List (Entry α) :=
  ((cbs.filter (fun e => !e.protect)).map (fun e => e.cb)).foldl
    (fun acc c => spliceFirst acc c) cbs

/-- `Emitter.off(ev)` (`src/index.ts` lines 438-450): purge the unprotected
entries, then delete the key if the list became empty. -/
def offEvent {α : Type} (t : Table α) (ev : String) : Table α :=
  match lookupEv t ev with
  | none => t
  | some cbs =>
    let cbs' := purgeUnprotected cbs
    if cbs'.length = 0 then deleteKey t ev else setEntries t ev cbs'

/-- `Emitter.off()` (`src/index.ts` line 452):
`Object.keys(this._evinfo).forEach((ev) => this.off(ev))` — the key list is
snapshotted, then the single-event form runs for each key. -/
def offAll {α : Type} (t : Table α) : Table α :=
  (t.map Prod.fst).foldl (fun acc ev => offEvent acc ev) t

/-- A callback environment: what the body of the callback with the given
identity does when invoked with the payload — it may mutate the table
arbitrarily (register, remove, re-register listeners) and reports whether it
threw. -/
def Env (α : Type) : Type := Nat → α → Table α → Table α × Bool

/-- The `emit` loop body (`src/index.ts` lines 466-471): iterate the snapshot
`es` (the spread `[...this._evinfo[ev]]` taken before the first invocation);
for each entry whose filter passes, run the callback on the live table; if it
threw, stop and propagate; otherwise, if the entry was registered with
`once`, remove it from the live table via `this.off(ev, cb)`.  Returns the
final table, the list of invoked callbacks in order, and the threw flag. -/
def emitLoop {α : Type} (env : Env α) (ev : String) (d : α) :
    List (Entry α) → Table α → Table α × List Nat × Bool
  | [], t => (t, [], false)
  | e :: rest, t =>
    if passes e d then
      let r0 := env e.cb d t
      if r0.2 then (r0.1, [e.cb], true)
      else
        let t2 := if e.once then offCb r0.1 ev e.cb else r0.1
        let r := emitLoop env ev d rest t2
        (r.1, e.cb :: r.2.1, r.2.2)
    else emitLoop env ev d rest t

/-- `Emitter.emit` (`src/index.ts` lines 460-476): if the event key is
present, run the loop over a snapshot of its current listener list. -/
def emit {α : Type} (env : Env α) (t : Table α) (ev : String) (d : α) :
    Table α × List Nat × Bool :=
  match lookupEv t ev with
  | none => (t, [], false)
  | some es => emitLoop env ev d es t

/-- A registration call for a fixed event: which of the four public
registration methods was used, with the callback identity, filter, and
protect option passed. -/
inductive RegOp (α : Type) where
  | onOp : Nat → Option (α → Bool) → Bool → RegOp α
  | prependOnOp : Nat → Option (α → Bool) → Bool → RegOp α
  | onceOp : Nat → Option (α → Bool) → Bool → RegOp α
  | prependOnceOp : Nat → Option (α → Bool) → Bool → RegOp α

/-- Run one registration call against the table. -/
def applyOp {α : Type} (ev : String) (t : Table α) : RegOp α → Table α
  | .onOp c f p => onFn t ev c f p
  | .prependOnOp c f p => prependOn t ev c f p
  | .onceOp c f p => onceFn t ev c f p
  | .prependOnceOp c f p => prependOnceFn t ev c f p

/-- Run a sequence of registration calls, left to right. -/
def applyOps {α : Type} (ev : String) (ops : List (RegOp α)) (t : Table α) :
    Table α :=
  ops.foldl (applyOp ev) t

/-- The entry a registration call stores. -/
def opEntry {α : Type} : RegOp α → Entry α
  | .onOp c f p => ⟨c, false, p, f⟩
  | .prependOnOp c f p => ⟨c, false, p, f⟩
  | .onceOp c f p => ⟨c, true, p, f⟩
  | .prependOnceOp c f p => ⟨c, true, p, f⟩

/-- Whether the registration call prepends (unshifts) its entry. -/
def isPrepend {α : Type} : RegOp α → Bool
  | .prependOnOp _ _ _ => true
  | .prependOnceOp _ _ _ => true
  | _ => false

/-- The callback identity a registration call stores. -/
def opCb {α : Type} : RegOp α → Nat
  | .onOp c _ _ => c
  | .prependOnOp c _ _ => c
  | .onceOp c _ _ => c
  | .prependOnceOp c _ _ => c

/-- The table invariant claimed by the spec: no key is bound to an empty
listener list. -/
def tableWF {α : Type} (t : Table α) : Bool :=
  t.all (fun p => !p.2.isEmpty)

/-- Keys are pairwise distinct — JS objects cannot hold a duplicate key, so
every reachable `_evinfo` satisfies this. -/
def keysNodup {α : Type} (t : Table α) : Prop :=
  (t.map Prod.fst).Nodup

/-- An environment of pure observer callbacks: no table mutation, no throw. -/
def idEnv (α : Type) : Env α := fun _ _ t => (t, false)

end TsEv

namespace TsEv

theorem lookupEv_setEntries_self {α : Type} (t : Table α) (ev : String)
    (es : List (Entry α)) : lookupEv (setEntries t ev es) ev = some es := by
  induction t with
  | nil => simp [setEntries, lookupEv]
  | cons p rest ih =>
    obtain ⟨k, old⟩ := p
    by_cases h : k = ev
    · simp [setEntries, h, lookupEv]
    · simp [setEntries, h, lookupEv, ih]

theorem lookupEv_setEntries_ne {α : Type} (t : Table α) {ev ev' : String}
    (es : List (Entry α)) (h : ev' ≠ ev) :
    lookupEv (setEntries t ev es) ev' = lookupEv t ev' := by
  have hne : ¬ ev = ev' := fun hh => h hh.symm
  induction t with
  | nil => simp [setEntries, lookupEv, hne]
  | cons p rest ih =>
    obtain ⟨k, old⟩ := p
    by_cases hk : k = ev
    · subst hk
      simp [setEntries, lookupEv, hne]
    · by_cases hk' : k = ev'
      · subst hk'
        simp [setEntries, hk, lookupEv]
      · simp [setEntries, hk, lookupEv, hk', ih]

theorem lookupEv_deleteKey_ne {α : Type} (t : Table α) {ev ev' : String}
    (h : ev' ≠ ev) : lookupEv (deleteKey t ev) ev' = lookupEv t ev' := by
  have hne : ¬ ev = ev' := fun hh => h hh.symm
  induction t with
  | nil => simp [deleteKey]
  | cons p rest ih =>
    obtain ⟨k, old⟩ := p
    by_cases hk : k = ev
    · subst hk
      simp [deleteKey, lookupEv, hne]
    · by_cases hk' : k = ev'
      · subst hk'
        simp [deleteKey, hk, lookupEv]
      · simp [deleteKey, hk, lookupEv, hk', ih]

theorem lookupEv_eq_none_iff {α : Type} (t : Table α) (ev : String) :
    lookupEv t ev = none ↔ ev ∉ t.map Prod.fst := by
  induction t with
  | nil => simp [lookupEv]
  | cons p rest ih =>
    obtain ⟨k, old⟩ := p
    by_cases hk : k = ev
    · simp [lookupEv, hk]
    · have hk2 : ¬ ev = k := fun hh => hk hh.symm
      simp [lookupEv, hk, ih, hk2]

theorem lookupEv_deleteKey_self {α : Type} (t : Table α) (ev : String)
    (h : keysNodup t) : lookupEv (deleteKey t ev) ev = none := by
  induction t with
  | nil => simp [deleteKey, lookupEv]
  | cons p rest ih =>
    obtain ⟨k, old⟩ := p
    rw [keysNodup, List.map_cons, List.nodup_cons] at h
    by_cases hk : k = ev
    · subst hk
      simp only [deleteKey, if_pos rfl]
      exact (lookupEv_eq_none_iff rest k).mpr h.1
    · simp [deleteKey, hk, lookupEv, ih h.2]

theorem map_fst_setEntries_present {α : Type} {t : Table α} {ev : String}
    (es : List (Entry α)) {x : List (Entry α)} (h : lookupEv t ev = some x) :
    (setEntries t ev es).map Prod.fst = t.map Prod.fst := by
  induction t with
  | nil => simp [lookupEv] at h
  | cons p rest ih =>
    obtain ⟨k, old⟩ := p
    by_cases hk : k = ev
    · simp [setEntries, hk]
    · rw [lookupEv, if_neg hk] at h
      simp [setEntries, hk, ih h]

theorem map_fst_setEntries_absent {α : Type} {t : Table α} {ev : String}
    (es : List (Entry α)) (h : lookupEv t ev = none) :
    (setEntries t ev es).map Prod.fst = t.map Prod.fst ++ [ev] := by
  induction t with
  | nil => simp [setEntries]
  | cons p rest ih =>
    obtain ⟨k, old⟩ := p
    by_cases hk : k = ev
    · rw [lookupEv, if_pos hk] at h
      exact absurd h (by simp)
    · rw [lookupEv, if_neg hk] at h
      simp [setEntries, hk, ih h]

theorem map_fst_deleteKey_sublist {α : Type} (t : Table α) (ev : String) :
    List.Sublist ((deleteKey t ev).map Prod.fst) (t.map Prod.fst) := by
  induction t with
  | nil => simp [deleteKey]
  | cons p rest ih =>
    obtain ⟨k, old⟩ := p
    by_cases hk : k = ev
    · simp only [deleteKey, if_pos hk, List.map_cons]
      exact (List.sublist_cons_self _ _)
    · simp only [deleteKey, if_neg hk, List.map_cons]
      exact ih.cons₂ k

theorem keysNodup_setEntries {α : Type} {t : Table α} (ev : String)
    (es : List (Entry α)) (h : keysNodup t) : keysNodup (setEntries t ev es) := by
  cases hl : lookupEv t ev with
  | none =>
    rw [keysNodup, map_fst_setEntries_absent es hl]
    have hev : ev ∉ t.map Prod.fst := (lookupEv_eq_none_iff t ev).mp hl
    simpa [List.nodup_append] using And.intro h hev
  | some x =>
    rw [keysNodup, map_fst_setEntries_present es hl]
    exact h

theorem keysNodup_deleteKey {α : Type} {t : Table α} (ev : String)
    (h : keysNodup t) : keysNodup (deleteKey t ev) :=
  (map_fst_deleteKey_sublist t ev).nodup h

theorem entriesOf_setEntries_self {α : Type} (t : Table α) (ev : String)
    (es : List (Entry α)) : entriesOf (setEntries t ev es) ev = es := by
  simp [entriesOf, lookupEv_setEntries_self]

theorem entriesOf_setEntries_ne {α : Type} (t : Table α) {ev ev' : String}
    (es : List (Entry α)) (h : ev' ≠ ev) :
    entriesOf (setEntries t ev es) ev' = entriesOf t ev' := by
  simp [entriesOf, lookupEv_setEntries_ne t es h]

theorem entriesOf_deleteKey_self {α : Type} (t : Table α) (ev : String)
    (h : keysNodup t) : entriesOf (deleteKey t ev) ev = [] := by
  simp [entriesOf, lookupEv_deleteKey_self t ev h]

theorem entriesOf_deleteKey_ne {α : Type} (t : Table α) {ev ev' : String}
    (h : ev' ≠ ev) : entriesOf (deleteKey t ev) ev' = entriesOf t ev' := by
  simp [entriesOf, lookupEv_deleteKey_ne t h]

theorem lookupEv_of_entriesOf_ne_nil {α : Type} {t : Table α} {ev : String}
    (h : entriesOf t ev ≠ []) : lookupEv t ev = some (entriesOf t ev) := by
  cases hl : lookupEv t ev with
  | none => exact absurd (by simp [entriesOf, hl]) h
  | some x => simp [entriesOf, hl]

end TsEv

namespace TsEv

theorem entriesOf_onFn_self {α : Type} (t : Table α) (ev : String) (c : Nat)
    (f : Option (α → Bool)) (p : Bool) :
    entriesOf (onFn t ev c f p) ev = entriesOf t ev ++ [⟨c, false, p, f⟩] := by
  rw [onFn]
  cases hl : lookupEv t ev with
  | none => simp [entriesOf, hl, lookupEv_setEntries_self]
  | some info => simp [entriesOf, hl, lookupEv_setEntries_self]

theorem entriesOf_prependOn_self {α : Type} (t : Table α) (ev : String) (c : Nat)
    (f : Option (α → Bool)) (p : Bool) :
    entriesOf (prependOn t ev c f p) ev =
      (⟨c, false, p, f⟩ : Entry α) :: entriesOf t ev := by
  rw [prependOn]
  cases hl : lookupEv t ev with
  | none => simp [entriesOf, hl, lookupEv_setEntries_self]
  | some info => simp [entriesOf, hl, lookupEv_setEntries_self]

theorem entriesOf_onceFn_self {α : Type} (t : Table α) (ev : String) (c : Nat)
    (f : Option (α → Bool)) (p : Bool) :
    entriesOf (onceFn t ev c f p) ev = entriesOf t ev ++ [⟨c, true, p, f⟩] := by
  rw [onceFn]
  cases hl : lookupEv t ev with
  | none => simp [entriesOf, hl, lookupEv_setEntries_self]
  | some info => simp [entriesOf, hl, lookupEv_setEntries_self]

theorem entriesOf_prependOnceFn_self {α : Type} (t : Table α) (ev : String)
    (c : Nat) (f : Option (α → Bool)) (p : Bool) :
    entriesOf (prependOnceFn t ev c f p) ev =
      (⟨c, true, p, f⟩ : Entry α) :: entriesOf t ev := by
  rw [prependOnceFn]
  cases hl : lookupEv t ev with
  | none => simp [entriesOf, hl, lookupEv_setEntries_self]
  | some info => simp [entriesOf, hl, lookupEv_setEntries_self]

theorem entriesOf_applyOp_self {α : Type} (ev : String) (t : Table α)
    (op : RegOp α) :
    entriesOf (applyOp ev t op) ev =
      if isPrepend op then opEntry op :: entriesOf t ev
      else entriesOf t ev ++ [opEntry op] := by
  cases op with
  | onOp c f p =>
    simp [applyOp, isPrepend, opEntry, entriesOf_onFn_self]
  | prependOnOp c f p =>
    simp [applyOp, isPrepend, opEntry, entriesOf_prependOn_self]
  | onceOp c f p =>
    simp [applyOp, isPrepend, opEntry, entriesOf_onceFn_self]
  | prependOnceOp c f p =>
    simp [applyOp, isPrepend, opEntry, entriesOf_prependOnceFn_self]

theorem entriesOf_applyOps {α : Type} (ev : String) (ops : List (RegOp α)) :
    ∀ t : Table α,
      entriesOf (applyOps ev ops t) ev =
        ((ops.filter (fun o => isPrepend o)).map opEntry).reverse
          ++ entriesOf t ev
          ++ (ops.filter (fun o => !isPrepend o)).map opEntry := by
  induction ops with
  | nil => intro t; simp [applyOps]
  | cons op ops ih =>
    intro t
    have hstep : applyOps ev (op :: ops) t = applyOps ev ops (applyOp ev t op) := by
      simp [applyOps]
    rw [hstep, ih (applyOp ev t op), entriesOf_applyOp_self]
    by_cases hp : isPrepend op = true
    · simp [hp, List.filter_cons]
    · simp [hp, List.filter_cons]

theorem emitLoop_trace_aux {α : Type} (env : Env α) (ev : String) (d : α)
    (henv : ∀ c x u, (env c x u).2 = false) :
    ∀ (es : List (Entry α)) (t : Table α),
      (emitLoop env ev d es t).2.1 =
          (es.filter (fun e => passes e d)).map (fun e => e.cb)
        ∧ (emitLoop env ev d es t).2.2 = false := by
  intro es
  induction es with
  | nil => intro t; simp [emitLoop]
  | cons e rest ih =>
    intro t
    by_cases hp : passes e d = true
    · obtain ⟨ih1, ih2⟩ :=
        ih (if e.once = true then offCb (env e.cb d t).1 ev e.cb
            else (env e.cb d t).1)
      simp [emitLoop, hp, henv e.cb d t, List.filter_cons, ih1, ih2]
    · obtain ⟨ih1, ih2⟩ := ih t
      simp [emitLoop, hp, List.filter_cons, ih1, ih2]

theorem emit_trace {α : Type} (env : Env α) (t : Table α) (ev : String) (d : α)
    (henv : ∀ c x u, (env c x u).2 = false) :
    (emit env t ev d).2.1 =
      ((entriesOf t ev).filter (fun e => passes e d)).map (fun e => e.cb) := by
  cases hl : lookupEv t ev with
  | none => simp [emit, hl, entriesOf]
  | some es =>
    simp [emit, hl, entriesOf, (emitLoop_trace_aux env ev d henv es t).1]

theorem emit_no_throw {α : Type} (env : Env α) (t : Table α) (ev : String)
    (d : α) (henv : ∀ c x u, (env c x u).2 = false) :
    (emit env t ev d).2.2 = false := by
  cases hl : lookupEv t ev with
  | none => simp [emit, hl]
  | some es => simp [emit, hl, (emitLoop_trace_aux env ev d henv es t).2]

end TsEv

namespace TsEv

theorem removeFirst_append_of_ne {α : Type} {pre : List (Entry α)} {c : Nat}
    (h : ∀ e ∈ pre, e.cb ≠ c) (l : List (Entry α)) :
    removeFirst c (pre ++ l) = pre ++ removeFirst c l := by
  induction pre with
  | nil => simp
  | cons e es ih =>
    have he : ¬ e.cb = c := h e (by simp)
    simp [removeFirst, he, ih (fun x hx => h x (by simp [hx]))]

theorem filter_removeFirst_self {α : Type} (c : Nat) (l : List (Entry α)) :
    (removeFirst c l).filter (fun e => e.cb == c) =
      (l.filter (fun e => e.cb == c)).drop 1 := by
  induction l with
  | nil => simp [removeFirst]
  | cons e es ih =>
    by_cases h : e.cb = c
    · simp [removeFirst, h, List.filter_cons]
    · simp [removeFirst, h, List.filter_cons, ih]

theorem filter_removeFirst_ne {α : Type} {v c : Nat} (hne : v ≠ c)
    (l : List (Entry α)) :
    (removeFirst v l).filter (fun e => e.cb == c) =
      l.filter (fun e => e.cb == c) := by
  induction l with
  | nil => simp [removeFirst]
  | cons e es ih =>
    by_cases h : e.cb = v
    · have hc : ¬ e.cb = c := by rw [h]; exact hne
      simp [removeFirst, h, List.filter_cons, hc, hne]
    · simp [removeFirst, h, List.filter_cons, ih]

theorem any_cb_iff {α : Type} (l : List (Entry α)) (c : Nat) :
    l.any (fun e => e.cb == c) = true ↔
      0 < (l.filter (fun e => e.cb == c)).length := by
  induction l with
  | nil => simp
  | cons e es ih =>
    by_cases h : e.cb = c
    · simp [h, List.filter_cons]
    · simp [h, List.filter_cons, ih]

theorem todel_count_le {α : Type} (cbs : List (Entry α)) (v : Nat) :
    ((cbs.filter (fun e => !e.protect)).map (fun e => e.cb)).count v
      ≤ (cbs.filter (fun e => e.cb == v)).length := by
  induction cbs with
  | nil => simp
  | cons e es ih =>
    by_cases hp : e.protect = true
    · by_cases hv : e.cb = v
      · simp [List.filter_cons, hp, hv]
        omega
      · simp [List.filter_cons, hp, hv, ih]
    · by_cases hv : e.cb = v
      · simp [List.filter_cons, hp, hv, List.count_cons]
        omega
      · simp [List.filter_cons, hp, hv, List.count_cons, ih]

theorem foldl_spliceFirst_filter_preserved {α : Type} (c : Nat) :
    ∀ (todel : List Nat) (cbs : List (Entry α)),
      (∀ v, todel.count v ≤ (cbs.filter (fun e => e.cb == v)).length) →
      c ∉ todel →
      (todel.foldl (fun acc x => spliceFirst acc x) cbs).filter
          (fun e => e.cb == c)
        = cbs.filter (fun e => e.cb == c) := by
  intro todel
  induction todel with
  | nil => intro cbs _ _; simp
  | cons v tl ih =>
    intro cbs h hc
    have hv : 0 < (cbs.filter (fun e => e.cb == v)).length := by
      have hcount := h v
      simp [List.count_cons] at hcount
      omega
    have hany : cbs.any (fun e => e.cb == v) = true := (any_cb_iff cbs v).mpr hv
    have hsp : spliceFirst cbs v = removeFirst v cbs := by
      rw [spliceFirst, if_pos hany]
    have hvc : v ≠ c := fun hh => hc (hh ▸ List.mem_cons_self v tl)
    have hcount' : ∀ w, tl.count w ≤
        ((removeFirst v cbs).filter (fun e => e.cb == w)).length := by
      intro w
      by_cases hw : w = v
      · subst hw
        have h1 := h w
        rw [filter_removeFirst_self, List.length_drop]
        simp [List.count_cons] at h1
        omega
      · rw [filter_removeFirst_ne (fun hh => hw hh.symm)]
        have h1 := h w
        simp [List.count_cons, hw] at h1
        exact h1
    have hc' : c ∉ tl := fun hmem => hc (List.mem_cons_of_mem _ hmem)
    calc ((v :: tl).foldl (fun acc x => spliceFirst acc x) cbs).filter
            (fun e => e.cb == c)
        = (tl.foldl (fun acc x => spliceFirst acc x) (removeFirst v cbs)).filter
            (fun e => e.cb == c) := by rw [List.foldl_cons, hsp]
      _ = (removeFirst v cbs).filter (fun e => e.cb == c) :=
            ih (removeFirst v cbs) hcount' hc'
      _ = cbs.filter (fun e => e.cb == c) := filter_removeFirst_ne hvc cbs

end TsEv

namespace TsEv

theorem purgeUnprotected_filter {α : Type} (cbs : List (Entry α)) {c : Nat}
    (hprot : ∀ e ∈ cbs, e.cb = c → e.protect = true) :
    (purgeUnprotected cbs).filter (fun e => e.cb == c)
      = cbs.filter (fun e => e.cb == c) := by
  apply foldl_spliceFirst_filter_preserved
  · intro v; exact todel_count_le cbs v
  · intro hmem
    simp only [List.mem_map, List.mem_filter] at hmem
    obtain ⟨e, ⟨hme, hp⟩, hcb⟩ := hmem
    have := hprot e hme hcb
    simp [this] at hp

theorem entriesOf_offEvent_self_protected {α : Type} {t : Table α}
    {ev : String} {c : Nat} (hnd : keysNodup t)
    (hprot : ∀ e ∈ entriesOf t ev, e.cb = c → e.protect = true) :
    (entriesOf (offEvent t ev) ev).filter (fun e => e.cb == c)
      = (entriesOf t ev).filter (fun e => e.cb == c) := by
  cases hl : lookupEv t ev with
  | none => simp [offEvent, hl]
  | some cbs =>
    have hcbs : entriesOf t ev = cbs := by simp [entriesOf, hl]
    simp only [offEvent, hl]
    have hfil : (purgeUnprotected cbs).filter (fun e => e.cb == c)
        = cbs.filter (fun e => e.cb == c) :=
      purgeUnprotected_filter cbs (by rw [hcbs] at hprot; exact hprot)
    by_cases hlen : (purgeUnprotected cbs).length = 0
    · have h0 : purgeUnprotected cbs = [] := List.length_eq_zero.mp hlen
      rw [h0] at hfil
      rw [if_pos hlen]
      rw [entriesOf_deleteKey_self t ev hnd, hcbs, ← hfil]
    · rw [if_neg hlen]
      rw [entriesOf_setEntries_self, hfil, hcbs]

theorem entriesOf_offEvent_ne {α : Type} (t : Table α) {k ev : String}
    (h : ev ≠ k) : entriesOf (offEvent t k) ev = entriesOf t ev := by
  cases hl : lookupEv t k with
  | none => simp [offEvent, hl]
  | some cbs =>
    simp only [offEvent, hl]
    by_cases hlen : (purgeUnprotected cbs).length = 0
    · rw [if_pos hlen]
      exact entriesOf_deleteKey_ne t h
    · rw [if_neg hlen]
      exact entriesOf_setEntries_ne t _ h

theorem offEvent_keysNodup {α : Type} (t : Table α) (k : String)
    (h : keysNodup t) : keysNodup (offEvent t k) := by
  cases hl : lookupEv t k with
  | none => simpa [offEvent, hl] using h
  | some cbs =>
    simp only [offEvent, hl]
    by_cases hlen : (purgeUnprotected cbs).length = 0
    · rw [if_pos hlen]
      exact keysNodup_deleteKey k h
    · rw [if_neg hlen]
      exact keysNodup_setEntries k _ h

theorem entriesOf_offCb_ne {α : Type} (t : Table α) {k ev : String} (c : Nat)
    (h : ev ≠ k) : entriesOf (offCb t k c) ev = entriesOf t ev := by
  cases hl : lookupEv t k with
  | none => simp [offCb, hl]
  | some cbs =>
    simp only [offCb, hl]
    by_cases hlen : (spliceFirst cbs c).length = 0
    · rw [if_pos hlen]
      exact entriesOf_deleteKey_ne t h
    · rw [if_neg hlen]
      exact entriesOf_setEntries_ne t _ h

theorem offCb_keysNodup {α : Type} (t : Table α) (k : String) (c : Nat)
    (h : keysNodup t) : keysNodup (offCb t k c) := by
  cases hl : lookupEv t k with
  | none => simpa [offCb, hl] using h
  | some cbs =>
    simp only [offCb, hl]
    by_cases hlen : (spliceFirst cbs c).length = 0
    · rw [if_pos hlen]
      exact keysNodup_deleteKey k h
    · rw [if_neg hlen]
      exact keysNodup_setEntries k _ h

theorem offCb_split {α : Type} {t : Table α} {ev : String}
    {pre rest : List (Entry α)} {en : Entry α} (h1 : keysNodup t)
    (h2 : entriesOf t ev = pre ++ en :: rest)
    (hpre : ∀ e ∈ pre, e.cb ≠ en.cb) :
    entriesOf (offCb t ev en.cb) ev = pre ++ rest
      ∧ keysNodup (offCb t ev en.cb) := by
  have hne : entriesOf t ev ≠ [] := by rw [h2]; simp
  have hl : lookupEv t ev = some (pre ++ en :: rest) := by
    have hx := lookupEv_of_entriesOf_ne_nil hne
    rwa [h2] at hx
  have hany : (pre ++ en :: rest).any (fun e => e.cb == en.cb) = true := by
    simp only [List.any_eq_true]
    exact ⟨en, by simp, by simp⟩
  have hrf : removeFirst en.cb (pre ++ en :: rest) = pre ++ rest := by
    rw [removeFirst_append_of_ne hpre, removeFirst]
    simp
  have hsp : spliceFirst (pre ++ en :: rest) en.cb = pre ++ rest := by
    rw [spliceFirst, if_pos hany, hrf]
  simp only [offCb, hl]
  by_cases hlen : (spliceFirst (pre ++ en :: rest) en.cb).length = 0
  · have h0 : pre ++ rest = [] := by
      rw [hsp] at hlen
      exact List.length_eq_zero.mp hlen
    rw [if_pos hlen]
    rw [entriesOf_deleteKey_self t ev h1, h0]
    exact ⟨rfl, keysNodup_deleteKey ev h1⟩
  · rw [if_neg hlen]
    rw [hsp, entriesOf_setEntries_self]
    exact ⟨rfl, keysNodup_setEntries ev _ h1⟩

theorem offCb_filter_kill {α : Type} {t : Table α} {ev : String} {c : Nat}
    {e0 : Entry α} (hnd : keysNodup t)
    (hfil : (entriesOf t ev).filter (fun e => e.cb == c) = [e0]) :
    (entriesOf (offCb t ev c) ev).filter (fun e => e.cb == c) = [] := by
  have hmem0 : e0 ∈ (entriesOf t ev).filter (fun e => e.cb == c) := by
    rw [hfil]; simp
  have hmem : e0 ∈ entriesOf t ev := List.mem_of_mem_filter hmem0
  have hne : entriesOf t ev ≠ [] := fun hh => by simp [hh] at hmem
  have hl : lookupEv t ev = some (entriesOf t ev) :=
    lookupEv_of_entriesOf_ne_nil hne
  have hany : (entriesOf t ev).any (fun e => e.cb == c) = true := by
    rw [any_cb_iff, hfil]
    simp
  have hsp : spliceFirst (entriesOf t ev) c = removeFirst c (entriesOf t ev) :=
    by rw [spliceFirst, if_pos hany]
  have hdrop : (removeFirst c (entriesOf t ev)).filter (fun e => e.cb == c)
      = [] := by
    rw [filter_removeFirst_self, hfil]
    simp
  simp only [offCb, hl]
  by_cases hlen : (spliceFirst (entriesOf t ev) c).length = 0
  · rw [if_pos hlen]
    rw [entriesOf_deleteKey_self t ev hnd]
    simp
  · rw [if_neg hlen]
    rw [hsp, entriesOf_setEntries_self, hdrop]

end TsEv

namespace TsEv

theorem tableWF_setEntries {α : Type} (ev : String) :
    ∀ (t : Table α) (es : List (Entry α)), tableWF t = true → es ≠ [] →
      tableWF (setEntries t ev es) = true := by
  intro t
  induction t with
  | nil =>
    intro es _ hes
    simp [setEntries, tableWF, hes]
  | cons p rest ih =>
    intro es h hes
    obtain ⟨k, old⟩ := p
    rw [tableWF, List.all_cons, Bool.and_eq_true] at h
    by_cases hk : k = ev
    · rw [setEntries, if_pos hk, tableWF, List.all_cons]
      simp only [Bool.and_eq_true]
      exact ⟨by simp [hes], h.2⟩
    · rw [setEntries, if_neg hk, tableWF, List.all_cons]
      simp only [Bool.and_eq_true]
      exact ⟨h.1, ih es h.2 hes⟩

theorem tableWF_deleteKey {α : Type} (ev : String) :
    ∀ t : Table α, tableWF t = true → tableWF (deleteKey t ev) = true := by
  intro t
  induction t with
  | nil => intro h; simpa [deleteKey]
  | cons p rest ih =>
    intro h
    obtain ⟨k, old⟩ := p
    rw [tableWF, List.all_cons, Bool.and_eq_true] at h
    by_cases hk : k = ev
    · rw [deleteKey, if_pos hk]
      exact h.2
    · rw [deleteKey, if_neg hk, tableWF, List.all_cons]
      simp only [Bool.and_eq_true]
      exact ⟨h.1, ih h.2⟩

theorem tableWF_offCb {α : Type} (t : Table α) (ev : String) (c : Nat)
    (h : tableWF t = true) : tableWF (offCb t ev c) = true := by
  cases hl : lookupEv t ev with
  | none => simpa [offCb, hl]
  | some cbs =>
    simp only [offCb, hl]
    by_cases hlen : (spliceFirst cbs c).length = 0
    · rw [if_pos hlen]
      exact tableWF_deleteKey ev t h
    · rw [if_neg hlen]
      exact tableWF_setEntries ev t _ h
        (fun hh => hlen (by rw [hh]; rfl))

theorem tableWF_offEvent {α : Type} (t : Table α) (ev : String)
    (h : tableWF t = true) : tableWF (offEvent t ev) = true := by
  cases hl : lookupEv t ev with
  | none => simpa [offEvent, hl]
  | some cbs =>
    simp only [offEvent, hl]
    by_cases hlen : (purgeUnprotected cbs).length = 0
    · rw [if_pos hlen]
      exact tableWF_deleteKey ev t h
    · rw [if_neg hlen]
      exact tableWF_setEntries ev t _ h
        (fun hh => hlen (by rw [hh]; rfl))

theorem tableWF_foldl_offEvent {α : Type} :
    ∀ (ks : List String) (acc : Table α), tableWF acc = true →
      tableWF (ks.foldl (fun a k => offEvent a k) acc) = true := by
  intro ks
  induction ks with
  | nil => intro acc h; simpa
  | cons k tl ih =>
    intro acc h
    rw [List.foldl_cons]
    exact ih _ (tableWF_offEvent acc k h)

theorem tableWF_offAll {α : Type} (t : Table α) (h : tableWF t = true) :
    tableWF (offAll t) = true :=
  tableWF_foldl_offEvent (t.map Prod.fst) t h

theorem tableWF_onFn {α : Type} (t : Table α) (ev : String) (c : Nat)
    (f : Option (α → Bool)) (p : Bool) (h : tableWF t = true) :
    tableWF (onFn t ev c f p) = true := by
  rw [onFn]
  cases hl : lookupEv t ev with
  | none => exact tableWF_setEntries ev t _ h (by simp)
  | some info => exact tableWF_setEntries ev t _ h (by simp)

theorem tableWF_prependOn {α : Type} (t : Table α) (ev : String) (c : Nat)
    (f : Option (α → Bool)) (p : Bool) (h : tableWF t = true) :
    tableWF (prependOn t ev c f p) = true := by
  rw [prependOn]
  cases hl : lookupEv t ev with
  | none => exact tableWF_setEntries ev t _ h (by simp)
  | some info => exact tableWF_setEntries ev t _ h (by simp)

theorem tableWF_onceFn {α : Type} (t : Table α) (ev : String) (c : Nat)
    (f : Option (α → Bool)) (p : Bool) (h : tableWF t = true) :
    tableWF (onceFn t ev c f p) = true := by
  rw [onceFn]
  cases hl : lookupEv t ev with
  | none => exact tableWF_setEntries ev t _ h (by simp)
  | some info => exact tableWF_setEntries ev t _ h (by simp)

theorem tableWF_prependOnceFn {α : Type} (t : Table α) (ev : String) (c : Nat)
    (f : Option (α → Bool)) (p : Bool) (h : tableWF t = true) :
    tableWF (prependOnceFn t ev c f p) = true := by
  rw [prependOnceFn]
  cases hl : lookupEv t ev with
  | none => exact tableWF_setEntries ev t _ h (by simp)
  | some info => exact tableWF_setEntries ev t _ h (by simp)

theorem tableWF_oncePromise {α : Type} (t : Table α) (ev : String) (c : Nat)
    (f : Option (α → Bool)) (p : Bool) (h : tableWF t = true) :
    tableWF (oncePromise t ev c f p) = true := by
  rw [oncePromise]
  cases hl : lookupEv t ev with
  | none => exact tableWF_setEntries ev t _ h (by simp)
  | some info => exact tableWF_setEntries ev t _ h (by simp)

theorem tableWF_prependOncePromise {α : Type} (t : Table α) (ev : String)
    (c : Nat) (f : Option (α → Bool)) (p : Bool) (h : tableWF t = true) :
    tableWF (prependOncePromise t ev c f p) = true := by
  rw [prependOncePromise]
  cases hl : lookupEv t ev with
  | none => exact tableWF_setEntries ev t _ h (by simp)
  | some info => exact tableWF_setEntries ev t _ h (by simp)

theorem tableWF_emitLoop {α : Type} (env : Env α) (ev : String) (d : α)
    (henv : ∀ c x u, tableWF u = true → tableWF (env c x u).1 = true) :
    ∀ (es : List (Entry α)) (t : Table α), tableWF t = true →
      tableWF (emitLoop env ev d es t).1 = true := by
  intro es
  induction es with
  | nil => intro t h; simpa [emitLoop]
  | cons e rest ih =>
    intro t h
    by_cases hp : passes e d = true
    · by_cases hth : (env e.cb d t).2 = true
      · simp only [emitLoop, hp, if_true, hth]
        exact henv e.cb d t h
      · rw [Bool.not_eq_true] at hth
        have hwf1 : tableWF (env e.cb d t).1 = true := henv e.cb d t h
        have hwf2 : tableWF (if e.once = true then
            offCb (env e.cb d t).1 ev e.cb else (env e.cb d t).1) = true := by
          by_cases ho : e.once = true
          · simp [ho, tableWF_offCb _ ev e.cb hwf1]
          · simp [ho, hwf1]
        have hrec := ih _ hwf2
        simp [emitLoop, hp, hth, hrec]
    · simp [emitLoop, hp, ih t h]

theorem tableWF_emit {α : Type} (env : Env α) (t : Table α) (ev : String)
    (d : α)
    (henv : ∀ c x u, tableWF u = true → tableWF (env c x u).1 = true)
    (h : tableWF t = true) : tableWF (emit env t ev d).1 = true := by
  cases hl : lookupEv t ev with
  | none => simpa [emit, hl]
  | some es =>
    simp only [emit, hl]
    exact tableWF_emitLoop env ev d henv es t h

end TsEv

namespace TsEv

theorem emitLoop_throw {α : Type} (env : Env α) (ev : String) (d : α)
    {eT : Entry α} (l₂ : List (Entry α))
    (hTp : passes eT d = true) (hT : ∀ u, (env eT.cb d u).2 = true) :
    ∀ (l₁ : List (Entry α)) (t : Table α),
      (∀ e ∈ l₁, ∀ u, (env e.cb d u).2 = false) →
      (emitLoop env ev d (l₁ ++ eT :: l₂) t).2.1
          = (l₁.filter (fun e => passes e d)).map (fun e => e.cb) ++ [eT.cb]
        ∧ (emitLoop env ev d (l₁ ++ eT :: l₂) t).2.2 = true := by
  intro l₁
  induction l₁ with
  | nil =>
    intro t _
    simp [emitLoop, hTp, hT t]
  | cons e l₁ ih =>
    intro t h
    have he : ∀ u, (env e.cb d u).2 = false := h e (by simp)
    by_cases hp : passes e d = true
    · obtain ⟨ih1, ih2⟩ :=
        ih (if e.once = true then offCb (env e.cb d t).1 ev e.cb
            else (env e.cb d t).1) (fun x hx => h x (by simp [hx]))
      simp [emitLoop, hp, he t, List.filter_cons, ih1, ih2]
    · obtain ⟨ih1, ih2⟩ := ih t (fun x hx => h x (by simp [hx]))
      simp [emitLoop, hp, List.filter_cons, ih1, ih2]

theorem emitLoop_entries_pure {α : Type} (env : Env α) (ev : String) (d : α)
    (henv : ∀ c x u, env c x u = (u, false)) :
    ∀ (es pre : List (Entry α)) (t : Table α),
      keysNodup t →
      entriesOf t ev = pre ++ es →
      ((pre ++ es).map (fun e => e.cb)).Nodup →
      entriesOf (emitLoop env ev d es t).1 ev
          = pre ++ es.filter (fun e => !(e.once && passes e d))
        ∧ keysNodup (emitLoop env ev d es t).1 := by
  intro es
  induction es with
  | nil =>
    intro pre t h1 h2 _
    rw [List.append_nil] at h2
    simpa [emitLoop] using ⟨h2, h1⟩
  | cons en rest ih =>
    intro pre t h1 h2 h3
    by_cases hp : passes en d = true
    · by_cases ho : en.once = true
      · have hpre : ∀ e ∈ pre, e.cb ≠ en.cb := by
          intro e he heq
          rw [List.map_append, List.nodup_append] at h3
          exact absurd
            (by simp [heq] : e.cb ∈ (en :: rest).map (fun e => e.cb))
            (h3.2.2 (List.mem_map_of_mem _ he))
        obtain ⟨hsplit1, hsplit2⟩ := offCb_split h1 h2 hpre
        have hsub : List.Sublist (pre ++ rest) (pre ++ en :: rest) :=
          (List.sublist_cons_self en rest).append_left pre
        have h3' : ((pre ++ rest).map (fun e => e.cb)).Nodup :=
          (hsub.map (fun e => e.cb)).nodup h3
        obtain ⟨e1, e2⟩ := ih pre (offCb t ev en.cb) hsplit2 hsplit1 h3'
        constructor
        · simp [emitLoop, hp, henv en.cb d t, ho, e1, List.filter_cons]
        · simp [emitLoop, hp, henv en.cb d t, ho, e2]
      · rw [Bool.not_eq_true] at ho
        have h2' : entriesOf t ev = (pre ++ [en]) ++ rest := by rw [h2]; simp
        have h3' : (((pre ++ [en]) ++ rest).map (fun e => e.cb)).Nodup := by
          simpa using h3
        obtain ⟨e1, e2⟩ := ih (pre ++ [en]) t h1 h2' h3'
        constructor
        · simp [emitLoop, hp, henv en.cb d t, ho, e1, List.filter_cons]
        · simp [emitLoop, hp, henv en.cb d t, ho, e2]
    · rw [Bool.not_eq_true] at hp
      have h2' : entriesOf t ev = (pre ++ [en]) ++ rest := by rw [h2]; simp
      have h3' : (((pre ++ [en]) ++ rest).map (fun e => e.cb)).Nodup := by
        simpa using h3
      obtain ⟨e1, e2⟩ := ih (pre ++ [en]) t h1 h2' h3'
      constructor
      · simp [emitLoop, hp, e1, List.filter_cons]
      · simp [emitLoop, hp, e2]

end TsEv

namespace TsEv

theorem opEntry_cb {α : Type} (op : RegOp α) : (opEntry op).cb = opCb op := by
  cases op <;> rfl

theorem applyOps_count {α : Type} (ev : String) (c : Nat) :
    ∀ (ops : List (RegOp α)) (t : Table α),
      ((entriesOf (applyOps ev ops t) ev).filter (fun e => e.cb == c)).length
        = ((entriesOf t ev).filter (fun e => e.cb == c)).length
          + (ops.filter (fun o => opCb o == c)).length := by
  intro ops
  induction ops with
  | nil => intro t; simp [applyOps]
  | cons op ops ih =>
    intro t
    have hstep : applyOps ev (op :: ops) t
        = applyOps ev ops (applyOp ev t op) := by
      simp [applyOps]
    rw [hstep, ih (applyOp ev t op), entriesOf_applyOp_self]
    by_cases hp : isPrepend op = true
    · by_cases hc : opCb op = c
      · simp [hp, List.filter_cons, List.filter_append, opEntry_cb, hc]
        omega
      · simp [hp, List.filter_cons, List.filter_append, opEntry_cb, hc]
    · by_cases hc : opCb op = c
      · simp [hp, List.filter_cons, List.filter_append, opEntry_cb, hc]
        omega
      · simp [hp, List.filter_cons, List.filter_append, opEntry_cb, hc]

theorem count_map_cb_filter {α : Type} (c : Nat) (d : α) :
    ∀ l : List (Entry α),
      ((l.filter (fun e => passes e d)).map (fun e => e.cb)).count c
        = (l.filter (fun e => e.cb == c && passes e d)).length := by
  intro l
  induction l with
  | nil => simp
  | cons e es ih =>
    by_cases hp : passes e d = true
    · by_cases hc : e.cb = c
      · simp [List.filter_cons, hp, hc, List.count_cons, ih]
      · simp [List.filter_cons, hp, hc, List.count_cons, ih]
    · rw [Bool.not_eq_true] at hp
      simp [List.filter_cons, hp, ih]

theorem filter_singleton_protected {α : Type} {l : List (Entry α)}
    {e0 : Entry α} (hfil : l.filter (fun e => e.cb == e0.cb) = [e0])
    (hp : e0.protect = true) :
    ∀ e ∈ l, e.cb = e0.cb → e.protect = true := by
  intro e he heq
  have hm : e ∈ l.filter (fun e => e.cb == e0.cb) :=
    List.mem_filter.mpr ⟨he, by simp [heq]⟩
  rw [hfil] at hm
  simp only [List.mem_singleton] at hm
  rw [hm]
  exact hp

theorem foldl_offEvent_filter_protected {α : Type} {ev : String}
    {e0 : Entry α} (hp : e0.protect = true) :
    ∀ (ks : List String) (acc : Table α), keysNodup acc →
      (entriesOf acc ev).filter (fun e => e.cb == e0.cb) = [e0] →
      keysNodup (ks.foldl (fun a k => offEvent a k) acc)
        ∧ (entriesOf (ks.foldl (fun a k => offEvent a k) acc) ev).filter
            (fun e => e.cb == e0.cb) = [e0] := by
  intro ks
  induction ks with
  | nil => intro acc h1 h2; exact ⟨h1, h2⟩
  | cons k tl ih =>
    intro acc h1 h2
    rw [List.foldl_cons]
    apply ih
    · exact offEvent_keysNodup acc k h1
    · by_cases hk : ev = k
      · subst hk
        rw [entriesOf_offEvent_self_protected h1
          (filter_singleton_protected h2 hp), h2]
      · rw [entriesOf_offEvent_ne acc hk, h2]

end TsEv

namespace TsEv

/-- C1: the claim states that `off(e, c)` with a callback `c` matching no
stored entry for a non-empty event `e` leaves the table unchanged.  The code
disagrees: `cbs.findIndex` returns `-1` and `cbs.splice(-1, 1)` removes the
LAST entry of the list (here emptying it, so the key is deleted as well).
This theorem evaluates the code at the failing input: the table maps `foo`
to one listener with callback 1, and `off("foo", 2)` empties the table. -/
theorem C1_off_unmatched_removes_last :
    offCb [("foo", [(⟨1, false, false, none⟩ : Entry Nat)])] "foo" 2 = []
      ∧ ([("foo", [(⟨1, false, false, none⟩ : Entry Nat)])] : Table Nat)
          ≠ [] := by
  constructor
  · rfl
  · simp

/-- C2: the sequence of callbacks invoked by one `emit` pass is fully
determined by the snapshot of the event's listener list taken before the
first invocation: for every non-throwing callback environment — the
callbacks may add, remove, or re-add listeners arbitrarily — the trace is
the snapshot filtered by the per-entry filters, and a callback identity
absent from the snapshot is never invoked in this pass. -/
theorem C2_emit_snapshot_isolation {α : Type} (env : Env α) (t : Table α)
    (ev : String) (d : α) (henv : ∀ c x u, (env c x u).2 = false) :
    (emit env t ev d).2.1
        = ((entriesOf t ev).filter (fun e => passes e d)).map (fun e => e.cb)
      ∧ ∀ c : Nat, c ∉ (entriesOf t ev).map (fun e => e.cb) →
          c ∉ (emit env t ev d).2.1 := by
  refine ⟨emit_trace env t ev d henv, ?_⟩
  intro c hc hmem
  rw [emit_trace env t ev d henv] at hmem
  simp only [List.mem_map, List.mem_filter] at hmem
  obtain ⟨e, ⟨he, _⟩, hcb⟩ := hmem
  exact hc (hcb ▸ List.mem_map_of_mem _ he)

/-- Witness for C2: two listeners are registered for `x`; the callback
environment wipes the whole table as a side effect of every invocation, and
still both snapshot entries are invoked. -/
theorem C2_emit_snapshot_isolation_witness :
    (emit (fun _ _ _ => (([] : Table Nat), false))
        [("x", [⟨5, false, false, none⟩, ⟨6, false, false, none⟩])]
        "x" 0).2.1 = [5, 6] := by
  have h := C2_emit_snapshot_isolation
      (fun _ _ _ => (([] : Table Nat), false))
      [("x", [⟨5, false, false, none⟩, ⟨6, false, false, none⟩])]
      "x" 0 (fun _ _ _ => rfl)
  rw [h.1]
  rfl

/-- C3: with the event initially unregistered, running any interleaving of
`on`/`once` (append) and `prependOn`/`prependOnce` (prepend) registrations
and then a single `emit` invokes the listeners whose filters pass in the
order: last prepended, …, first prepended, then the appended ones in
registration order. -/
theorem C3_emit_invocation_order {α : Type} (env : Env α) (t : Table α)
    (ev : String) (d : α) (ops : List (RegOp α))
    (h0 : entriesOf t ev = [])
    (henv : ∀ c x u, (env c x u).2 = false) :
    (emit env (applyOps ev ops t) ev d).2.1
      = ((((ops.filter (fun o => isPrepend o)).map opEntry).reverse
          ++ (ops.filter (fun o => !isPrepend o)).map opEntry).filter
            (fun e => passes e d)).map (fun e => e.cb) := by
  rw [emit_trace env _ ev d henv, entriesOf_applyOps, h0]
  simp

/-- Witness for C3: appending callbacks 1, 2 and then prepending 3, 4 yields
the invocation order 4, 3, 1, 2. -/
theorem C3_emit_invocation_order_witness :
    (emit (idEnv Nat) (applyOps "x"
        [RegOp.onOp 1 none false, RegOp.onOp 2 none false,
         RegOp.prependOnOp 3 none false, RegOp.prependOnOp 4 none false]
        ([] : Table Nat)) "x" 0).2.1 = [4, 3, 1, 2] := by
  have h := C3_emit_invocation_order (idEnv Nat) ([] : Table Nat) "x" 0
      [RegOp.onOp 1 none false, RegOp.onOp 2 none false,
       RegOp.prependOnOp 3 none false, RegOp.prependOnOp 4 none false]
      rfl (fun _ _ _ => rfl)
  rw [h]
  rfl

/-- C7: the claim states that a promise-form registration stores an entry
with `protect = true` and `once = true` overriding any caller protect
option, and that such an entry is removed only by its own once-firing or by
an exact-callback `off`.  The storage half holds (first two conjuncts: the
caller passed `protect = false`, yet the stored entry has `protect = true`
and `once = true`).  The removal half fails on the code: `off("x", 99)`
with the unregistered callback 99 falls into the `splice(-1, 1)` path and
removes the promise entry (third conjunct), contradicting the claim. -/
theorem C7_promise_protect_forced_but_removable :
    entriesOf (oncePromise ([] : Table Nat) "x" 7 none false) "x"
        = [⟨7, true, true, none⟩]
      ∧ entriesOf (prependOncePromise ([] : Table Nat) "x" 8 none false) "x"
        = [⟨8, true, true, none⟩]
      ∧ offCb (oncePromise ([] : Table Nat) "x" 7 none false) "x" 99 = [] :=
  ⟨rfl, rfl, rfl⟩

/-- C9: when the first entry of an event's list is protected and a later
unprotected entry stores the same callback value, `off(event)` removes the
FIRST entry holding that value — the protected one — and leaves the
unprotected duplicate in place. -/
theorem C9_off_event_removes_first_holder {α : Type} (t : Table α)
    (ev : String) (eP eU : Entry α) (rest : List (Entry α))
    (h2 : entriesOf t ev = eP :: eU :: rest)
    (hP : eP.protect = true) (hU : eU.protect = false)
    (hcb : eU.cb = eP.cb)
    (hrest : ∀ e ∈ rest, e.protect = true) :
    entriesOf (offEvent t ev) ev = eU :: rest := by
  have hne : entriesOf t ev ≠ [] := by rw [h2]; simp
  have hl : lookupEv t ev = some (eP :: eU :: rest) := by
    have hx := lookupEv_of_entriesOf_ne_nil hne
    rwa [h2] at hx
  have htds : (eP :: eU :: rest).filter (fun e => !e.protect) = [eU] := by
    rw [List.filter_cons, List.filter_cons]
    simp only [hP, hU]
    simp only [Bool.not_true, Bool.not_false, if_true, if_false]
    rw [List.filter_eq_nil_iff.mpr (fun e he => by simp [hrest e he])]
    simp
  have hpurge : purgeUnprotected (eP :: eU :: rest) = eU :: rest := by
    rw [purgeUnprotected, htds]
    simp only [List.map_cons, List.map_nil, List.foldl_cons, List.foldl_nil]
    rw [spliceFirst, if_pos (by simp [hcb])]
    rw [removeFirst, if_pos hcb.symm]
  simp only [offEvent, hl, hpurge]
  rw [if_neg (by simp)]
  exact entriesOf_setEntries_self t ev (eU :: rest)

/-- Witness for C9: a protected entry for callback 1 sits before an
unprotected entry for the same callback; `off("x")` removes the protected
one and keeps the unprotected one. -/
theorem C9_off_event_removes_first_holder_witness :
    entriesOf (offEvent
        [("x", [(⟨1, false, true, none⟩ : Entry Nat),
                ⟨1, false, false, none⟩])] "x") "x"
      = [(⟨1, false, false, none⟩ : Entry Nat)] := by
  have h := C9_off_event_removes_first_holder
      [("x", [(⟨1, false, true, none⟩ : Entry Nat),
              ⟨1, false, false, none⟩])] "x"
      ⟨1, false, true, none⟩ ⟨1, false, false, none⟩ []
      rfl rfl rfl rfl (fun e he => absurd he (List.not_mem_nil e))
  exact h

end TsEv

namespace TsEv

/-- C4: with pure observer callbacks and pairwise-distinct callback
identities for the event, a listener entry registered with `once = true`
whose filter accepts the payload is invoked by the first such `emit`, its
callback is absent from the event's listener list afterwards, and a second
`emit` of the event does not invoke it. -/
theorem C4_once_fires_exactly_once {α : Type} (env : Env α) (t : Table α)
    (ev : String) (d₁ : α) (e0 : Entry α)
    (henv : ∀ c x u, env c x u = (u, false))
    (hnd : keysNodup t)
    (hcbs : ((entriesOf t ev).map (fun e => e.cb)).Nodup)
    (hmem : e0 ∈ entriesOf t ev)
    (honce : e0.once = true)
    (hpass : passes e0 d₁ = true) :
    e0.cb ∈ (emit env t ev d₁).2.1
      ∧ e0.cb ∉ (entriesOf (emit env t ev d₁).1 ev).map (fun e => e.cb)
      ∧ ∀ d₂ : α, e0.cb ∉ (emit env (emit env t ev d₁).1 ev d₂).2.1 := by
  have henv2 : ∀ c x u, (env c x u).2 = false := fun c x u => by rw [henv]
  have htr := emit_trace env t ev d₁ henv2
  have hne : entriesOf t ev ≠ [] := fun hh => by simp [hh] at hmem
  have hl : lookupEv t ev = some (entriesOf t ev) :=
    lookupEv_of_entriesOf_ne_nil hne
  have hev := emitLoop_entries_pure env ev d₁ henv (entriesOf t ev) [] t hnd
      (by simp) (by simpa using hcbs)
  have htbl : (emit env t ev d₁).1
      = (emitLoop env ev d₁ (entriesOf t ev) t).1 := by
    simp [emit, hl]
  have hafter : entriesOf (emit env t ev d₁).1 ev
      = (entriesOf t ev).filter (fun e => !(e.once && passes e d₁)) := by
    rw [htbl]
    simpa using hev.1
  have hnotin : e0.cb
      ∉ (entriesOf (emit env t ev d₁).1 ev).map (fun e => e.cb) := by
    rw [hafter]
    intro hx
    simp only [List.mem_map, List.mem_filter] at hx
    obtain ⟨e', ⟨he', hflt⟩, hcb⟩ := hx
    have heq : e' = e0 := List.inj_on_of_nodup_map hcbs he' hmem hcb
    subst heq
    rw [honce, hpass] at hflt
    simp at hflt
  refine ⟨?_, hnotin, ?_⟩
  · rw [htr]
    exact List.mem_map_of_mem _ (List.mem_filter.mpr ⟨hmem, hpass⟩)
  · intro d₂ hx
    rw [emit_trace env _ ev d₂ henv2] at hx
    simp only [List.mem_map, List.mem_filter] at hx
    obtain ⟨e', ⟨he', _⟩, hcb⟩ := hx
    exact hnotin (hcb ▸ List.mem_map_of_mem _ he')

/-- Witness for C4: a once listener (callback 1) and a plain listener
(callback 2); after the first emit callback 1 has fired and is gone, and a
second emit does not invoke it. -/
theorem C4_once_fires_exactly_once_witness :
    (1 : Nat) ∈ (emit (idEnv Nat)
        [("x", [⟨1, true, false, none⟩, ⟨2, false, false, none⟩])]
        "x" 0).2.1
      ∧ (1 : Nat) ∉ (entriesOf (emit (idEnv Nat)
          [("x", [⟨1, true, false, none⟩, ⟨2, false, false, none⟩])]
          "x" 0).1 "x").map (fun e => e.cb)
      ∧ (1 : Nat) ∉ (emit (idEnv Nat) (emit (idEnv Nat)
          [("x", [⟨1, true, false, none⟩, ⟨2, false, false, none⟩])]
          "x" 0).1 "x" 3).2.1 := by
  have h := C4_once_fires_exactly_once (idEnv Nat)
      [("x", [⟨1, true, false, none⟩, ⟨2, false, false, none⟩])] "x" 0
      ⟨1, true, false, none⟩ (fun _ _ _ => rfl)
      (by rw [keysNodup]; decide) (by decide)
      (List.mem_cons_self _ _) rfl rfl
  exact ⟨h.1, h.2.1, h.2.2 3⟩

/-- C5 counterexample: the claim states a `protect = true` entry is never
removed by `off(event)`.  With a protected entry for callback 1 listed
before an unprotected entry for the same callback 1, `off("foo")` removes
the protected entry (the first holder of the collected callback) and keeps
the unprotected duplicate, so the claim as stated is false. -/
theorem C5_counterexample_protected_removed :
    offEvent [("foo", [(⟨1, false, true, none⟩ : Entry Nat),
        ⟨1, false, false, none⟩])] "foo"
      = [("foo", [(⟨1, false, false, none⟩ : Entry Nat)])]
    ∧ (⟨1, false, true, none⟩ : Entry Nat)
        ∉ entriesOf (offEvent [("foo",
            [(⟨1, false, true, none⟩ : Entry Nat),
             ⟨1, false, false, none⟩])] "foo") "foo" := by
  refine ⟨rfl, ?_⟩
  have hres : entriesOf (offEvent [("foo",
      [(⟨1, false, true, none⟩ : Entry Nat),
       ⟨1, false, false, none⟩])] "foo") "foo"
      = [(⟨1, false, false, none⟩ : Entry Nat)] := rfl
  rw [hres]
  intro hmem
  simp only [List.mem_singleton] at hmem
  have hpr := congrArg Entry.protect hmem
  simp at hpr

/-- C5 amended: a `protect = true` entry whose callback value is held by no
other entry of the event survives `off(event)` and `off()` untouched, while
`off(event, thatCallback)` does remove it (no entry with that callback
remains). -/
theorem C5_protection_amended {α : Type} (t : Table α) (ev : String)
    (e0 : Entry α) (hnd : keysNodup t) (hp : e0.protect = true)
    (hfil : (entriesOf t ev).filter (fun e => e.cb == e0.cb) = [e0]) :
    e0 ∈ entriesOf (offEvent t ev) ev
      ∧ e0 ∈ entriesOf (offAll t) ev
      ∧ (entriesOf (offCb t ev e0.cb) ev).filter (fun e => e.cb == e0.cb)
          = [] := by
  have hprot := filter_singleton_protected hfil hp
  refine ⟨?_, ?_, offCb_filter_kill hnd hfil⟩
  · have h1 := entriesOf_offEvent_self_protected hnd hprot
    rw [hfil] at h1
    have hm : e0 ∈ (entriesOf (offEvent t ev) ev).filter
        (fun e => e.cb == e0.cb) := by
      rw [h1]
      simp
    exact List.mem_of_mem_filter hm
  · obtain ⟨_, h2⟩ :=
      foldl_offEvent_filter_protected hp (t.map Prod.fst) t hnd hfil
    have hm : e0 ∈ (entriesOf (offAll t) ev).filter
        (fun e => e.cb == e0.cb) := by
      rw [offAll, h2]
      simp
    exact List.mem_of_mem_filter hm

/-- Witness for C5 amended: a single protected listener for callback 1
survives `off("x")` and `off()`, and `off("x", 1)` removes it. -/
theorem C5_protection_amended_witness :
    (⟨1, false, true, none⟩ : Entry Nat)
        ∈ entriesOf (offEvent [("x",
            [(⟨1, false, true, none⟩ : Entry Nat)])] "x") "x"
      ∧ (⟨1, false, true, none⟩ : Entry Nat)
        ∈ entriesOf (offAll [("x",
            [(⟨1, false, true, none⟩ : Entry Nat)])]) "x"
      ∧ (entriesOf (offCb [("x", [(⟨1, false, true, none⟩ : Entry Nat)])]
          "x" 1) "x").filter (fun e => e.cb == 1) = [] := by
  have h := C5_protection_amended
      [("x", [(⟨1, false, true, none⟩ : Entry Nat)])] "x"
      ⟨1, false, true, none⟩ (by rw [keysNodup]; decide) rfl rfl
  exact ⟨h.1, h.2.1, h.2.2⟩

/-- C6: the invariant that no event key is bound to an empty listener list
is preserved by every operation: the six registration forms, the three
`off` forms, and `emit` (the latter provided the callbacks themselves only
perform invariant-preserving table mutations). -/
theorem C6_no_empty_entry_lists {α : Type} (t : Table α) (ev : String)
    (c : Nat) (f : Option (α → Bool)) (p : Bool) (env : Env α) (d : α)
    (h : tableWF t = true) :
    tableWF (onFn t ev c f p) = true
      ∧ tableWF (prependOn t ev c f p) = true
      ∧ tableWF (onceFn t ev c f p) = true
      ∧ tableWF (prependOnceFn t ev c f p) = true
      ∧ tableWF (oncePromise t ev c f p) = true
      ∧ tableWF (prependOncePromise t ev c f p) = true
      ∧ tableWF (offCb t ev c) = true
      ∧ tableWF (offEvent t ev) = true
      ∧ tableWF (offAll t) = true
      ∧ ((∀ c' x u, tableWF u = true → tableWF (env c' x u).1 = true) →
          tableWF (emit env t ev d).1 = true) :=
  ⟨tableWF_onFn t ev c f p h, tableWF_prependOn t ev c f p h,
   tableWF_onceFn t ev c f p h, tableWF_prependOnceFn t ev c f p h,
   tableWF_oncePromise t ev c f p h, tableWF_prependOncePromise t ev c f p h,
   tableWF_offCb t ev c h, tableWF_offEvent t ev h, tableWF_offAll t h,
   fun henv => tableWF_emit env t ev d henv h⟩

/-- Witness for C6: the invariant holds after a registration, an event-wide
removal, and an emit on a concrete one-listener table. -/
theorem C6_no_empty_entry_lists_witness :
    tableWF (onFn [("y", [(⟨9, true, false, none⟩ : Entry Nat)])]
        "y" 1 none false) = true
      ∧ tableWF (offEvent [("y", [(⟨9, true, false, none⟩ : Entry Nat)])]
        "y") = true
      ∧ tableWF (emit (idEnv Nat)
        [("y", [(⟨9, true, false, none⟩ : Entry Nat)])] "y" 0).1 = true := by
  obtain ⟨h1, _, _, _, _, _, _, h8, _, h10⟩ :=
    C6_no_empty_entry_lists
      [("y", [(⟨9, true, false, none⟩ : Entry Nat)])] "y" 1 none false
      (idEnv Nat) 0 rfl
  exact ⟨h1, h8, h10 (fun _ _ u hu => hu)⟩

/-- C8: if a listener's callback throws during an emit pass (after the
filtered entries before it ran without throwing), the pass stops — the
trace is exactly the passing entries before it followed by the thrower —
and the threw flag propagates to the caller of `emit`. -/
theorem C8_throwing_listener_aborts_pass {α : Type} (env : Env α)
    (t : Table α) (ev : String) (d : α) (l₁ l₂ : List (Entry α))
    (eT : Entry α)
    (hsnap : lookupEv t ev = some (l₁ ++ eT :: l₂))
    (h₁ : ∀ e ∈ l₁, ∀ u, (env e.cb d u).2 = false)
    (hT : ∀ u, (env eT.cb d u).2 = true)
    (hTp : passes eT d = true) :
    (emit env t ev d).2.2 = true
      ∧ (emit env t ev d).2.1
          = (l₁.filter (fun e => passes e d)).map (fun e => e.cb)
            ++ [eT.cb] := by
  obtain ⟨ht1, ht2⟩ := emitLoop_throw env ev d l₂ hTp hT l₁ t h₁
  constructor
  · simp only [emit, hsnap]
    exact ht2
  · simp only [emit, hsnap]
    exact ht1

/-- Witness for C8: of three listeners, callback 2 throws; callbacks 1 and 2
run, callback 3 does not, and the error propagates. -/
theorem C8_throwing_listener_aborts_pass_witness :
    (emit (fun c _ u => (u, c == 2))
        [("x", [(⟨1, false, false, none⟩ : Entry Nat),
                ⟨2, false, false, none⟩, ⟨3, false, false, none⟩])]
        "x" 0).2.2 = true
      ∧ (emit (fun c _ u => (u, c == 2))
          [("x", [(⟨1, false, false, none⟩ : Entry Nat),
                  ⟨2, false, false, none⟩, ⟨3, false, false, none⟩])]
          "x" 0).2.1 = [1, 2] := by
  have h := C8_throwing_listener_aborts_pass
      (fun c _ u => (u, c == 2))
      [("x", [(⟨1, false, false, none⟩ : Entry Nat),
              ⟨2, false, false, none⟩, ⟨3, false, false, none⟩])]
      "x" 0 [⟨1, false, false, none⟩] [⟨3, false, false, none⟩]
      ⟨2, false, false, none⟩ rfl
      (by
        intro e he u
        rw [List.mem_singleton] at he
        subst he
        rfl)
      (fun u => rfl) rfl
  exact ⟨h.1, by rw [h.2]; rfl⟩

/-- C10: every registration of a callback for an event adds one more entry
holding it — no deduplication across `on`/`prependOn`/`once`/`prependOnce`
— and a single emit invokes the callback once per stored entry whose filter
passes the payload. -/
theorem C10_duplicate_registration_per_entry {α : Type} (env : Env α)
    (t : Table α) (ev : String) (d : α) (c : Nat) (ops : List (RegOp α))
    (henv : ∀ c' x u, (env c' x u).2 = false) :
    ((entriesOf (applyOps ev ops t) ev).filter (fun e => e.cb == c)).length
        = ((entriesOf t ev).filter (fun e => e.cb == c)).length
          + (ops.filter (fun o => opCb o == c)).length
      ∧ (emit env t ev d).2.1.count c
        = ((entriesOf t ev).filter
            (fun e => e.cb == c && passes e d)).length := by
  refine ⟨applyOps_count ev c ops t, ?_⟩
  rw [emit_trace env t ev d henv]
  exact count_map_cb_filter c d (entriesOf t ev)

/-- Witness for C10: callback 1 is already stored twice; registering it once
more yields three entries holding it, and an emit on the two-entry table
invokes it twice. -/
theorem C10_duplicate_registration_per_entry_witness :
    ((entriesOf (applyOps "x" [RegOp.onOp 1 none false]
        [("x", [(⟨1, false, false, none⟩ : Entry Nat),
                ⟨1, true, false, none⟩])]) "x").filter
        (fun e => e.cb == 1)).length = 3
      ∧ (emit (idEnv Nat)
          [("x", [(⟨1, false, false, none⟩ : Entry Nat),
                  ⟨1, true, false, none⟩])] "x" 0).2.1.count 1 = 2 := by
  have h := C10_duplicate_registration_per_entry (idEnv Nat)
      [("x", [(⟨1, false, false, none⟩ : Entry Nat),
              ⟨1, true, false, none⟩])] "x" 0 1
      [RegOp.onOp 1 none false] (fun _ _ _ => rfl)
  exact ⟨by rw [h.1]; rfl, by rw [h.2]; rfl⟩

end TsEv
